import Mathlib

/-!
Shallow embedding of the multi-currency portfolio engine
(`src/models/portfolio_metrics.py`): currency conversion, valuation,
weights and allocations, the concentration-capped target-weight solver,
rebalancing actions and historical value reconstruction.  Python floats
are embedded as exact rationals; Python dicts as insertion-ordered
association lists with overwrite-on-assignment semantics.
-/

namespace Portfolio

/-- Insertion-ordered dictionary, as Python's dict. -/
abbrev Dict (κ α : Type) := List (κ × α)

/-- Python `d.get(k)`: the binding of `k`, if any. -/
def dget {κ α : Type} [DecidableEq κ] : Dict κ α → κ → Option α
  | [], _ => none
  | p :: rest, k => if k = p.1 then some p.2 else dget rest k

/-- Python `d[k] = v`: overwrite in place if the key exists, else append. -/
def dset {κ α : Type} [DecidableEq κ] : Dict κ α → κ → α → Dict κ α
  | [], k, v => [(k, v)]
  | p :: rest, k, v => if k = p.1 then (k, v) :: rest else p :: dset rest k v

/-- Python `d.values()`. -/
def dvalues {κ α : Type} (d : Dict κ α) : List α := d.map Prod.snd

/-- Python `d.keys()`. -/
def dkeys {κ α : Type} (d : Dict κ α) : List κ := d.map Prod.fst

/-- One portfolio position, the record shape the engine reads. -/
structure Holding where
  symbol : String
  company : String
  shares : ℚ
  purchase_price : ℚ
  currency : String
deriving DecidableEq

/-- `PortfolioMetrics.get_sgd_price`: convert a local-currency price to SGD.
`rate = fx_rates.get(currency, 1.0)`. -/
def get_sgd_price (local_price : ℚ) (currency : String) (fx_rates : Dict String ℚ) : ℚ :=
  if currency = "SGD" then local_price
  else local_price * ((dget fx_rates currency).getD 1)

/-- Modelled from the spec (§4.1 Currency Converter, §7 Missing FX rate),
for comparison with `get_sgd_price`: the spec's converter returns the
amount unchanged for the reporting currency, multiplies by the table's
rate otherwise, and yields no conversion at all for a non-reporting
currency absent from the table (it "does not invent rates"). -/
def toReportingCurrencySpec (amount : ℚ) (currency : String)
    (rateTable : Dict String ℚ) : Option ℚ :=
  if currency = "SGD" then some amount
  else (dget rateTable currency).map (fun r => amount * r)

/-- `PortfolioMetrics.get_portfolio_value_sgd`: total value in SGD; holdings
whose symbol has no price are skipped. -/
def get_portfolio_value_sgd (holdings : List Holding)
    (prices_local fx_rates : Dict String ℚ) : ℚ :=
  holdings.foldl (fun total h =>
    match dget prices_local h.symbol with
    | none => total
    | some price_local => total + h.shares * get_sgd_price price_local h.currency fx_rates) 0

/-- `PortfolioMetrics.get_weights`: symbol -> fraction of total SGD value;
empty when the total is zero. -/
def get_weights (holdings : List Holding)
    (prices_local fx_rates : Dict String ℚ) : Dict String ℚ :=
  let total := get_portfolio_value_sgd holdings prices_local fx_rates
  if total = 0 then []
  else
    holdings.foldl (fun w h =>
      match dget prices_local h.symbol with
      | none => w
      | some price_local =>
        dset w h.symbol (h.shares * get_sgd_price price_local h.currency fx_rates / total)) []

/-- Region derived from the trading currency, as in `get_region_allocation`. -/
def regionOf (currency : String) : String :=
  if currency = "SGD" then "SG" else if currency = "HKD" then "HK" else "US"

/-- `PortfolioMetrics.get_region_allocation`: percentages per region. -/
def get_region_allocation (holdings : List Holding)
    (prices_local fx_rates : Dict String ℚ) : Dict String ℚ :=
  let total := get_portfolio_value_sgd holdings prices_local fx_rates
  if total = 0 then []
  else
    let region_values := holdings.foldl (fun d h =>
      match dget prices_local h.symbol with
      | none => d
      | some price_local =>
        let region := regionOf h.currency
        dset d region ((dget d region).getD 0
          + h.shares * get_sgd_price price_local h.currency fx_rates)) []
    region_values.map (fun p => (p.1, p.2 / total * 100))

/-- `PortfolioMetrics.get_sector_allocation`: percentages per sector;
`sector_map.get(sym) or "Unknown"` treats a missing or empty label as
`"Unknown"`. -/
def get_sector_allocation (holdings : List Holding)
    (prices_local fx_rates : Dict String ℚ) (sector_map : Dict String String) : Dict String ℚ :=
  let total := get_portfolio_value_sgd holdings prices_local fx_rates
  if total = 0 then []
  else
    let sector_values := holdings.foldl (fun d h =>
      match dget prices_local h.symbol with
      | none => d
      | some price_local =>
        let sector := match dget sector_map h.symbol with
          | none => "Unknown"
          | some s => if s = "" then "Unknown" else s
        dset d sector ((dget d sector).getD 0
          + h.shares * get_sgd_price price_local h.currency fx_rates)) []
    sector_values.map (fun p => (p.1, p.2 / total * 100))

/-- `PortfolioMetrics.get_weighted_metric`: SGD-value-weighted average of
`metric_map[symbol][key]`, skipping missing values and values equal to 0. -/
def get_weighted_metric (holdings : List Holding)
    (prices_local fx_rates : Dict String ℚ)
    (metric_map : Dict String (Dict String ℚ)) (key : String) : ℚ :=
  (get_weights holdings prices_local fx_rates).foldl (fun total p =>
    match dget ((dget metric_map p.1).getD []) key with
    | none => total
    | some v => if v ≠ 0 then total + p.2 * v else total) 0

/-- The solver's epsilon, `1e-9` in the source. -/
def eps : ℚ := 1 / 1000000000

/-- One pass of the cap-and-redistribute loop body in
`PortfolioMetrics.suggest_weights`; `none` encodes hitting a `break`. -/
def capStep (cap : ℚ) (weights : Dict String ℚ) : Option (Dict String ℚ) :=
  let capped := weights.map (fun p => (p.1, min p.2 cap))
  let surplus := ((weights.filter (fun p => cap < p.2)).map (fun p => p.2 - cap)).sum
  if surplus < eps then none
  else
    let uncapped := capped.filter (fun p => p.2 < cap - eps)
    if uncapped = [] then none
    else
      let ut := (uncapped.map Prod.snd).sum
      some (capped.map (fun p =>
        if p.2 < cap - eps then (p.1, p.2 + surplus * (p.2 / ut)) else p))

/-- The `for _ in range(100)` loop of `suggest_weights`, with explicit fuel. -/
def capLoop (cap : ℚ) : Nat → Dict String ℚ → Dict String ℚ
  | 0, ws => ws
  | n + 1, ws =>
    match capStep cap ws with
    | none => ws
    | some ws2 => capLoop cap n ws2

/-- `valid = [c for c in candidates if scores.get(c, 0) > 0]`. -/
def validOf (candidates : List String) (scores : Dict String ℚ) : List String :=
  candidates.filter (fun c => 0 < (dget scores c).getD 0)

/-- The no-positive-score fallback of `suggest_weights`:
equal weight `1/n`, or empty when there are no candidates. -/
def equalW (candidates : List String) : Dict String ℚ :=
  if candidates = [] then []
  else candidates.foldl (fun d c => dset d c (1 / (candidates.length : ℚ))) []

/-- `weights = {c: scores[c] for c in valid}`. -/
def rawW (valid : List String) (scores : Dict String ℚ) : Dict String ℚ :=
  valid.foldl (fun d c => dset d c ((dget scores c).getD 0)) []

/-- The first normalisation: `weights = {c: v / total for c, v in weights.items()}`. -/
def normW (d : Dict String ℚ) : Dict String ℚ :=
  d.map (fun p => (p.1, p.2 / (dvalues d).sum))

/-- The final normalisation, guarded by `if total > 0`. -/
def finalNorm (d : Dict String ℚ) : Dict String ℚ :=
  if 0 < (dvalues d).sum then d.map (fun p => (p.1, p.2 / (dvalues d).sum)) else d

/-- `for c in candidates: if c not in weights: weights[c] = 0.0`. -/
def addZeros (candidates : List String) (d : Dict String ℚ) : Dict String ℚ :=
  candidates.foldl (fun d c => if (dget d c).isSome then d else dset d c 0) d

/-- `PortfolioMetrics.suggest_weights`: score-proportional weights capped at
`cap`, redistributed iteratively, renormalised, with zero-score candidates
added back at weight 0. -/
def suggest_weights (candidates : List String) (scores : Dict String ℚ)
    (cap : ℚ) : Dict String ℚ :=
  if validOf candidates scores = [] then equalW candidates
  else
    addZeros candidates
      (finalNorm (capLoop cap 100 (normW (rawW (validOf candidates scores) scores))))

/-- One row of `PortfolioMetrics.get_rebalancing_actions`. -/
structure RebalancingAction where
  symbol : String
  company : String
  current_pct : ℚ
  suggested_pct : ℚ
  delta_pct : ℚ
  delta_sgd : ℚ
  action : String
deriving DecidableEq

/-- First-occurrence deduplication, the key set of Python's `set(...)`. -/
def firstDedup : List String → List String
  | [] => []
  | c :: rest => c :: (firstDedup rest).filter (fun x => x ≠ c)

/-- Kernel-reducible lexicographic order on char lists (by code point). -/
def charListLe : List Char → List Char → Bool
  | [], _ => true
  | _ :: _, [] => false
  | a :: as, b :: bs =>
    if a.toNat < b.toNat then true
    else if b.toNat < a.toNat then false
    else charListLe as bs

/-- Python's string order, used by `sorted(all_symbols)`. -/
def strLe (a b : String) : Bool := charListLe a.toList b.toList

/-- The per-symbol record built inside the loop of
`PortfolioMetrics.get_rebalancing_actions`. -/
def mkAction (current_weights suggested_weights : Dict String ℚ)
    (company_map : Dict String String) (total_sgd : ℚ) (sym : String) :
    RebalancingAction :=
  let current_pct := (dget current_weights sym).getD 0 * 100
  let suggested_pct := (dget suggested_weights sym).getD 0 * 100
  let delta_pct := suggested_pct - current_pct
  let delta_sgd := delta_pct / 100 * total_sgd
  let act := if |delta_pct| < 1 then "Hold" else if 0 < delta_pct then "Buy" else "Sell"
  ⟨sym, (dget company_map sym).getD sym, current_pct, suggested_pct,
    delta_pct, delta_sgd, act⟩

/-- `PortfolioMetrics.get_rebalancing_actions`: one Buy/Sell/Hold record per
symbol in the union of current and suggested weights. -/
def get_rebalancing_actions (holdings : List Holding)
    (prices_local fx_rates : Dict String ℚ)
    (suggested_weights : Dict String ℚ) (total_sgd : ℚ) : List RebalancingAction :=
  let current_weights := get_weights holdings prices_local fx_rates
  let company_map := holdings.foldl (fun d h => dset d h.symbol h.company)
    ([] : Dict String String)
  let all_symbols := List.insertionSort (fun a b => strLe a b = true)
    (firstDedup (dkeys current_weights ++ dkeys suggested_weights))
  all_symbols.map (mkAction current_weights suggested_weights company_map total_sgd)

/-- A pandas price series: a date-indexed sequence of values. -/
abbrev TSeries := List (Nat × ℚ)

/-- The date index of a series. -/
def sIndex (s : TSeries) : List Nat := s.map Prod.fst

/-- `Index.intersection`, keeping the left index's order. -/
def interIdx (a b : List Nat) : List Nat := a.filter (fun d => d ∈ b)

/-- `Series.reindex(idx)`: values at the given dates, `none` for missing. -/
def reindexO (s : TSeries) (idx : List Nat) : List (Option ℚ) :=
  idx.map (fun d => dget s d)

/-- Forward fill, carrying the last seen value. -/
def ffillAux (prev : Option ℚ) : List (Option ℚ) → List (Option ℚ)
  | [] => []
  | none :: rest => prev :: ffillAux prev rest
  | some v :: rest => some v :: ffillAux (some v) rest

/-- `Series.ffill()`. -/
def ffill (l : List (Option ℚ)) : List (Option ℚ) := ffillAux none l

/-- `Series.fillna(x)`. -/
def fillna (x : ℚ) (l : List (Option ℚ)) : List (Option ℚ) :=
  l.map (fun o => some (o.getD x))

/-- NaN-propagating addition of aligned series values. -/
def addO : Option ℚ → Option ℚ → Option ℚ
  | some a, some b => some (a + b)
  | _, _ => none

/-- NaN-propagating multiplication of aligned series values. -/
def mulO : Option ℚ → Option ℚ → Option ℚ
  | some a, some b => some (a * b)
  | _, _ => none

/-- `pd.Series(x, index=idx)` as an aligned value list. -/
def constS (idx : List Nat) (x : ℚ) : List (Option ℚ) := idx.map (fun _ => some x)

/-- The price history used for a holding: present and non-empty, else skipped
(`hist is not None and not hist.empty`). -/
def availHist (price_histories : Dict String TSeries) (h : Holding) : Option TSeries :=
  match dget price_histories h.symbol with
  | none => none
  | some hist => if hist = [] then none else some hist

/-- The FX value list a holding is converted with in `get_historical_value`:
1.0 for SGD or when no FX history exists, else the FX history reindexed to
the common dates, forward-filled, remaining gaps set to 1.0. -/
def fxSeries (fx_histories : Dict String TSeries) (currency : String)
    (idx : List Nat) : List (Option ℚ) :=
  if currency = "SGD" then constS idx 1
  else
    match dget fx_histories currency with
    | none => constS idx 1
    | some fxh => if fxh = [] then constS idx 1 else fillna 1 (ffill (reindexO fxh idx))

/-- The intersection of the date indices of a non-empty family of series,
starting from the first one (`common_index.intersection(...)` loop). -/
def commonIndexOf : List TSeries → List Nat
  | [] => []
  | s0 :: rest => rest.foldl (fun acc s => interIdx acc (sIndex s)) (sIndex s0)

/-- The `total += shares * hist_aligned.ffill() * fx` accumulation loop of
`get_historical_value`, over the aligned common index. -/
def histTotal (holdings : List Holding)
    (price_histories fx_histories : Dict String TSeries)
    (common : List Nat) : List (Option ℚ) :=
  holdings.foldl (fun acc h =>
    match availHist price_histories h with
    | none => acc
    | some hist =>
      let hist_aligned := reindexO hist common
      if hist_aligned.all (fun o => o.isNone) then acc
      else
        List.zipWith addO acc (List.zipWith mulO
          ((ffill hist_aligned).map (fun o => o.map (fun v => h.shares * v)))
          (fxSeries fx_histories h.currency common))) (constS common 0)

/-- `PortfolioMetrics.get_historical_value`: daily SGD portfolio value on the
intersection of the available histories' date indices. -/
def get_historical_value (holdings : List Holding)
    (price_histories fx_histories : Dict String TSeries) : List (Nat × Option ℚ) :=
  if holdings = [] ∨ price_histories = [] then []
  else
    if holdings.filterMap (availHist price_histories) = [] then []
    else
      let common := commonIndexOf (holdings.filterMap (availHist price_histories))
      if common = [] then []
      else common.zip (histTotal holdings price_histories fx_histories common)

/-- The day-`d` FX factor a holding contributes with, read off `fxSeries`. -/
def fxValAt (fx_histories : Dict String TSeries) (currency : String)
    (idx : List Nat) (d : Nat) : ℚ :=
  match dget (idx.zip (fxSeries fx_histories currency idx)) d with
  | some (some v) => v
  | _ => 1

/-- One holding's contribution to the day-`d` portfolio value. -/
def histContrib (price_histories fx_histories : Dict String TSeries)
    (idx : List Nat) (h : Holding) (d : Nat) : ℚ :=
  match availHist price_histories h with
  | none => 0
  | some hist => h.shares * (dget hist d).getD 0 * fxValAt fx_histories h.currency idx d

/-- One priced holding's SGD value, `shares * get_sgd_price(price, currency, fx)`. -/
def holdingValue (prices_local fx_rates : Dict String ℚ) (h : Holding) : ℚ :=
  h.shares * get_sgd_price ((dget prices_local h.symbol).getD 0) h.currency fx_rates

/-- The metric value looked up by `get_weighted_metric`:
`(metric_map.get(sym) or {}).get(key)`. -/
def metricVal (metric_map : Dict String (Dict String ℚ)) (key s : String) : Option ℚ :=
  dget ((dget metric_map s).getD []) key

/-! ### Dictionary lemmas -/

theorem dget_dset {κ α : Type} [DecidableEq κ] (d : Dict κ α) (k k' : κ) (v : α) :
    dget (dset d k v) k' = if k' = k then some v else dget d k' := by
  induction d with
  | nil => simp [dget, dset]
  | cons p rest ih =>
    by_cases hk : k = p.1
    · by_cases hk' : k' = p.1 <;> simp [dget, dset, hk, hk', hk ▸ hk']
    · by_cases hk' : k' = p.1
      · have h1 : ¬ k' = k := fun he => hk (he ▸ hk')
        have h2 : ¬ p.1 = k := fun he => hk he.symm
        simp [dget, dset, hk, hk', h1, h2]
      · simp [dget, dset, hk, hk', ih]

theorem dget_isSome_iff {κ α : Type} [DecidableEq κ] (d : Dict κ α) (k : κ) :
    (dget d k).isSome = true ↔ k ∈ dkeys d := by
  induction d with
  | nil => simp [dget, dkeys]
  | cons p rest ih =>
    by_cases hk : k = p.1 <;> simp [dget, dkeys, hk, ih]

theorem dget_eq_none_iff {κ α : Type} [DecidableEq κ] (d : Dict κ α) (k : κ) :
    dget d k = none ↔ k ∉ dkeys d := by
  rw [← dget_isSome_iff]
  cases dget d k <;> simp

theorem dset_of_fresh {κ α : Type} [DecidableEq κ] {d : Dict κ α} {k : κ} (v : α)
    (h : dget d k = none) : dset d k v = d ++ [(k, v)] := by
  induction d with
  | nil => simp [dset]
  | cons p rest ih =>
    have hk : ¬ k = p.1 := by
      intro he
      simp [dget, he] at h
    simp [dget, hk] at h
    simp [dset, hk, ih h]

theorem mem_dset {κ α : Type} [DecidableEq κ] {d : Dict κ α} {k : κ} {v : α} {p : κ × α}
    (hp : p ∈ dset d k v) : p ∈ d ∨ p = (k, v) := by
  induction d with
  | nil => simp [dset] at hp; simp [hp]
  | cons q rest ih =>
    by_cases hk : k = q.1
    · simp [dset, hk] at hp
      rcases hp with hp | hp
      · right; simp [hp, ← hk]
      · left; simp [hp]
    · simp [dset, hk] at hp
      rcases hp with hp | hp
      · left; simp [hp]
      · rcases ih hp with hm | hm
        · left; simp [hm]
        · right; exact hm

theorem dset_ne_nil {κ α : Type} [DecidableEq κ] (d : Dict κ α) (k : κ) (v : α) :
    dset d k v ≠ [] := by
  cases d with
  | nil => simp [dset]
  | cons p rest =>
    by_cases hk : k = p.1 <;> simp [dset, hk]

theorem dkeys_append {κ α : Type} (a b : Dict κ α) :
    dkeys (a ++ b) = dkeys a ++ dkeys b := by
  simp [dkeys]

theorem dvalues_append {κ α : Type} (a b : Dict κ α) :
    dvalues (a ++ b) = dvalues a ++ dvalues b := by
  simp [dvalues]

theorem dget_append {κ α : Type} [DecidableEq κ] (a b : Dict κ α) (k : κ) :
    dget (a ++ b) k = match dget a k with
      | some v => some v
      | none => dget b k := by
  induction a with
  | nil => simp [dget]
  | cons p rest ih =>
    by_cases hk : k = p.1 <;> simp [dget, hk, ih]

/-! ### Lemmas about dict-building folds -/

theorem foldl_dset_eq_append {β κ : Type} [DecidableEq κ] (key : β → κ) (f : β → ℚ)
    (l : List β) (d0 : Dict κ ℚ) (hnd : (l.map key).Nodup)
    (hfresh : ∀ b ∈ l, dget d0 (key b) = none) :
    l.foldl (fun d b => dset d (key b) (f b)) d0
      = d0 ++ l.map (fun b => (key b, f b)) := by
  induction l generalizing d0 with
  | nil => simp
  | cons b rest ih =>
    simp only [List.foldl_cons]
    have hnd2 : (∀ x ∈ rest, ¬ key x = key b) ∧ (rest.map key).Nodup := by
      simpa using hnd
    have h1 : dset d0 (key b) (f b) = d0 ++ [(key b, f b)] :=
      dset_of_fresh _ (hfresh b (by simp))
    have hfresh' : ∀ c ∈ rest, dget (d0 ++ [(key b, f b)]) (key c) = none := by
      intro c hc
      rw [dget_append]
      rw [hfresh c (by simp [hc])]
      simp [dget, hnd2.1 c hc]
    rw [h1, ih _ hnd2.2 hfresh']
    simp

theorem dget_foldl_dset {κ : Type} [DecidableEq κ] (l : List κ) (f : κ → ℚ)
    (d0 : Dict κ ℚ) (k : κ) :
    dget (l.foldl (fun d c => dset d c (f c)) d0) k
      = if k ∈ l then some (f k) else dget d0 k := by
  induction l generalizing d0 with
  | nil => simp
  | cons c rest ih =>
    simp only [List.foldl_cons]
    rw [ih]
    by_cases hk : k ∈ rest
    · simp [hk]
    · by_cases hkc : k = c
      · simp [hk, hkc, dget_dset]
      · simp [hk, hkc, dget_dset]

theorem foldl_dset_values_pos {κ : Type} [DecidableEq κ] (l : List κ) (f : κ → ℚ)
    (d0 : Dict κ ℚ) (hf : ∀ c ∈ l, 0 < f c) (h0 : ∀ p ∈ d0, 0 < p.2) :
    ∀ p ∈ l.foldl (fun d c => dset d c (f c)) d0, 0 < p.2 := by
  induction l generalizing d0 with
  | nil => simpa using h0
  | cons c rest ih =>
    simp only [List.foldl_cons]
    have h0' : ∀ p ∈ dset d0 c (f c), 0 < p.2 := by
      intro p hp
      rcases mem_dset hp with hm | hm
      · exact h0 p hm
      · rw [hm]
        exact hf c (by simp)
    exact ih _ (fun x hx => hf x (by simp [hx])) h0'

theorem foldl_dset_ne_nil {κ : Type} [DecidableEq κ] (l : List κ) (f : κ → ℚ)
    (d0 : Dict κ ℚ) (h : d0 ≠ [] ∨ l ≠ []) :
    l.foldl (fun d c => dset d c (f c)) d0 ≠ [] := by
  induction l generalizing d0 with
  | nil =>
    rcases h with h | h
    · simpa using h
    · simp at h
  | cons c rest ih =>
    simp only [List.foldl_cons]
    exact ih _ (Or.inl (dset_ne_nil _ _ _))

/-! ### Valuation and weight lemmas -/

theorem sum_map_div {β : Type} (l : List β) (f : β → ℚ) (t : ℚ) :
    (l.map (fun b => f b / t)).sum = (l.map f).sum / t := by
  induction l with
  | nil => simp
  | cons x rest ih => simp [ih, add_div]

theorem value_foldl_aux (prices_local fx_rates : Dict String ℚ) (l : List Holding) (a : ℚ) :
    l.foldl (fun total h =>
      match dget prices_local h.symbol with
      | none => total
      | some price_local =>
        total + h.shares * get_sgd_price price_local h.currency fx_rates) a
    = a + ((l.filter (fun h => (dget prices_local h.symbol).isSome)).map
        (holdingValue prices_local fx_rates)).sum := by
  induction l generalizing a with
  | nil => simp
  | cons h rest ih =>
    simp only [List.foldl_cons]
    cases hp : dget prices_local h.symbol with
    | none =>
      rw [ih]
      simp [List.filter_cons, hp]
    | some pl =>
      rw [ih]
      simp [List.filter_cons, hp, holdingValue]
      ring

theorem get_portfolio_value_sgd_eq_sum (holdings : List Holding)
    (prices_local fx_rates : Dict String ℚ) :
    get_portfolio_value_sgd holdings prices_local fx_rates
      = ((holdings.filter (fun h => (dget prices_local h.symbol).isSome)).map
          (holdingValue prices_local fx_rates)).sum := by
  have h := value_foldl_aux prices_local fx_rates holdings 0
  simpa [get_portfolio_value_sgd] using h

theorem weights_foldl_eq (prices_local fx_rates : Dict String ℚ) (t : ℚ)
    (l : List Holding) (d0 : Dict String ℚ)
    (hp : ∀ h ∈ l, (dget prices_local h.symbol).isSome = true) :
    l.foldl (fun w h =>
      match dget prices_local h.symbol with
      | none => w
      | some price_local =>
        dset w h.symbol (h.shares * get_sgd_price price_local h.currency fx_rates / t)) d0
    = l.foldl (fun w h => dset w h.symbol (holdingValue prices_local fx_rates h / t)) d0 := by
  induction l generalizing d0 with
  | nil => rfl
  | cons h rest ih =>
    simp only [List.foldl_cons]
    have hs := hp h (by simp)
    cases hph : dget prices_local h.symbol with
    | none =>
      rw [hph] at hs
      simp at hs
    | some pl =>
      simp only [hph]
      have hv : holdingValue prices_local fx_rates h
          = h.shares * get_sgd_price pl h.currency fx_rates := by
        simp [holdingValue, hph]
      rw [hv]
      exact ih _ (fun x hx => hp x (by simp [hx]))

theorem get_weights_eq_map (holdings : List Holding)
    (prices_local fx_rates : Dict String ℚ)
    (hp : ∀ h ∈ holdings, (dget prices_local h.symbol).isSome = true)
    (hnd : (holdings.map Holding.symbol).Nodup)
    (ht : get_portfolio_value_sgd holdings prices_local fx_rates ≠ 0) :
    get_weights holdings prices_local fx_rates
      = holdings.map (fun h => (h.symbol,
          holdingValue prices_local fx_rates h
            / get_portfolio_value_sgd holdings prices_local fx_rates)) := by
  simp only [get_weights]
  rw [if_neg ht]
  rw [weights_foldl_eq _ _ _ _ _ hp]
  have h := foldl_dset_eq_append Holding.symbol
    (fun h => holdingValue prices_local fx_rates h
      / get_portfolio_value_sgd holdings prices_local fx_rates)
    holdings [] hnd (by intro b _; rfl)
  simpa using h

theorem wm_foldl_aux (metric_map : Dict String (Dict String ℚ)) (key : String)
    (l : Dict String ℚ) (a : ℚ) :
    l.foldl (fun total p =>
      match dget ((dget metric_map p.1).getD []) key with
      | none => total
      | some v => if v ≠ 0 then total + p.2 * v else total) a
    = a + ((l.filter (fun q => (metricVal metric_map key q.1).isSome
          ∧ (metricVal metric_map key q.1).getD 0 ≠ 0)).map
        (fun q => q.2 * (metricVal metric_map key q.1).getD 0)).sum := by
  induction l generalizing a with
  | nil => simp
  | cons q rest ih =>
    simp only [List.foldl_cons]
    cases hm : dget ((dget metric_map q.1).getD []) key with
    | none =>
      rw [ih]
      simp [List.filter_cons, metricVal, hm]
    | some v =>
      by_cases hv : v = 0
      · subst hv
        simp only [hm]
        rw [if_neg (by simp)]
        rw [ih]
        simp [List.filter_cons, metricVal, hm]
      · simp only [hm, if_pos hv]
        rw [ih]
        simp [List.filter_cons, metricVal, hm, hv]
        ring

/-! ### Claim theorems, first batch -/

/-- C4 counterexample: for the non-reporting currency `"EUR"`, absent from the
rate table, the spec-level converter yields no conversion (it invents no
rate), yet `get_sgd_price` does return a converted amount, obtained by
silently applying the built-in default rate `1.0` — so the default is not
restricted to the reporting currency as the claim states. -/
theorem c4_counterexample :
    ("EUR" : String) ≠ "SGD"
    ∧ dget ([("USD", 27/20)] : Dict String ℚ) "EUR" = none
    ∧ toReportingCurrencySpec 20 "EUR" [("USD", 27/20)] = none
    ∧ get_sgd_price 20 "EUR" [("USD", 27/20)] = 20 * 1 := by
  refine ⟨by decide, by simp [dget], ?_, ?_⟩
  · simp [toReportingCurrencySpec, dget]
  · simp [get_sgd_price, dget]

/-- C4 (amended): `get_sgd_price` returns the amount unchanged for the
reporting currency SGD; for any other currency present in the table it
multiplies by the table's rate; for a non-reporting currency absent from
the table it falls back to the built-in default rate `1.0` (the same
default as the reporting currency), returning `amount * 1`. -/
theorem c4_sgd_price_amended (amount : ℚ) (currency : String)
    (fx_rates : Dict String ℚ) :
    (currency = "SGD" → get_sgd_price amount currency fx_rates = amount)
    ∧ (currency ≠ "SGD" → ∀ r, dget fx_rates currency = some r →
        get_sgd_price amount currency fx_rates = amount * r)
    ∧ (currency ≠ "SGD" → dget fx_rates currency = none →
        get_sgd_price amount currency fx_rates = amount * 1) := by
  refine ⟨fun h => by simp [get_sgd_price, h], fun h r hr => ?_, fun h hr => ?_⟩
  · simp [get_sgd_price, h, hr]
  · simp [get_sgd_price, h, hr]

/-- C4 witness: the three cases of the amended claim at concrete inputs. -/
theorem c4_sgd_price_amended_witness :
    get_sgd_price 5 "SGD" [] = 5
    ∧ get_sgd_price 20 "USD" [("USD", 27/20)] = 20 * (27/20)
    ∧ get_sgd_price 20 "EUR" [("USD", 27/20)] = 20 * 1 :=
  ⟨(c4_sgd_price_amended 5 "SGD" []).1 rfl,
   (c4_sgd_price_amended 20 "USD" [("USD", 27/20)]).2.1 (by decide) (27/20) (by simp [dget]),
   (c4_sgd_price_amended 20 "EUR" [("USD", 27/20)]).2.2 (by decide) (by simp [dget])⟩

/-- C7: whenever the total SGD portfolio value of the given holdings, prices
and rates is 0, `get_weights`, `get_region_allocation` and
`get_sector_allocation` all return the empty mapping (and in particular
never divide by the zero total). -/
theorem c7_zero_total_empty (holdings : List Holding)
    (prices_local fx_rates : Dict String ℚ) (sector_map : Dict String String)
    (h : get_portfolio_value_sgd holdings prices_local fx_rates = 0) :
    get_weights holdings prices_local fx_rates = []
    ∧ get_region_allocation holdings prices_local fx_rates = []
    ∧ get_sector_allocation holdings prices_local fx_rates sector_map = [] := by
  refine ⟨?_, ?_, ?_⟩
  · simp [get_weights, h]
  · simp [get_region_allocation, h]
  · simp [get_sector_allocation, h]

/-- C7 witness: a holding with no price in the snapshot gives total 0 and
empty weight and allocation mappings. -/
theorem c7_zero_total_empty_witness :
    get_portfolio_value_sgd [⟨"A", "A", 3, 1, "SGD"⟩] [] [] = 0
    ∧ get_weights [⟨"A", "A", 3, 1, "SGD"⟩] [] [] = []
    ∧ get_region_allocation [⟨"A", "A", 3, 1, "SGD"⟩] [] [] = []
    ∧ get_sector_allocation [⟨"A", "A", 3, 1, "SGD"⟩] [] [] [] = [] := by
  have h0 : get_portfolio_value_sgd [⟨"A", "A", 3, 1, "SGD"⟩] [] [] = 0 := by
    simp [get_portfolio_value_sgd, dget, List.foldl]
  have h := c7_zero_total_empty [⟨"A", "A", 3, 1, "SGD"⟩] [] [] [] h0
  exact ⟨h0, h.1, h.2.1, h.2.2⟩

/-- C8: the total SGD portfolio value is the sum of `shares * converted price`
over exactly the holdings whose symbol has a price in the snapshot
(unpriced holdings are skipped); and in Scenario A (100 shares at
reporting-currency price 10 plus 50 shares at foreign price 20 with rate
1.35) the total is 2350 and the weights are 1000/2350 and 1350/2350. -/
theorem c8_portfolio_value_spec :
    (∀ (holdings : List Holding) (prices_local fx_rates : Dict String ℚ),
      get_portfolio_value_sgd holdings prices_local fx_rates
        = ((holdings.filter (fun h => (dget prices_local h.symbol).isSome)).map
            (holdingValue prices_local fx_rates)).sum)
    ∧ get_portfolio_value_sgd
        [⟨"X", "X", 100, 1, "SGD"⟩, ⟨"Y", "Y", 50, 1, "USD"⟩]
        [("X", 10), ("Y", 20)] [("USD", 27/20)] = 2350
    ∧ dget (get_weights [⟨"X", "X", 100, 1, "SGD"⟩, ⟨"Y", "Y", 50, 1, "USD"⟩]
        [("X", 10), ("Y", 20)] [("USD", 27/20)]) "X" = some (1000/2350)
    ∧ dget (get_weights [⟨"X", "X", 100, 1, "SGD"⟩, ⟨"Y", "Y", 50, 1, "USD"⟩]
        [("X", 10), ("Y", 20)] [("USD", 27/20)]) "Y" = some (1350/2350) := by
  have hw : get_weights [⟨"X", "X", 100, 1, "SGD"⟩, ⟨"Y", "Y", 50, 1, "USD"⟩]
      [("X", 10), ("Y", 20)] [("USD", 27/20)] = [("X", 20/47), ("Y", 27/47)] := by
    simp [get_weights, get_portfolio_value_sgd, get_sgd_price, dget, dset, List.foldl]
    norm_num
  refine ⟨get_portfolio_value_sgd_eq_sum, ?_, ?_, ?_⟩
  · simp [get_portfolio_value_sgd, get_sgd_price, dget, List.foldl]
    norm_num
  · rw [hw]
    simp [dget]
    norm_num
  · rw [hw]
    simp [dget]
    norm_num

/-- C9: `get_weighted_metric` is the sum of `weight * metric value` over
exactly those entries of the computed weight mapping whose symbol has a
metric value that is present and not exactly 0; missing or zero metric
values contribute nothing. -/
theorem c9_weighted_metric_spec (holdings : List Holding)
    (prices_local fx_rates : Dict String ℚ)
    (metric_map : Dict String (Dict String ℚ)) (key : String) :
    get_weighted_metric holdings prices_local fx_rates metric_map key
      = (((get_weights holdings prices_local fx_rates).filter (fun q =>
            (metricVal metric_map key q.1).isSome
              ∧ (metricVal metric_map key q.1).getD 0 ≠ 0)).map
          (fun q => q.2 * (metricVal metric_map key q.1).getD 0)).sum := by
  have h := wm_foldl_aux metric_map key (get_weights holdings prices_local fx_rates) 0
  simpa [get_weighted_metric] using h

/-- C1 counterexample: a non-empty holdings list with positive share counts in
which every holding's symbol has a strictly positive price, but two
holdings share the symbol "A": `get_weights` keeps a single overwritten
entry for "A" while the total counts both positions, so the returned
weights sum to 1/2, not 1. -/
theorem c1_counterexample :
    ([⟨"A", "A1", 1, 1, "SGD"⟩, ⟨"A", "A2", 1, 1, "SGD"⟩] : List Holding) ≠ []
    ∧ (∀ h ∈ ([⟨"A", "A1", 1, 1, "SGD"⟩, ⟨"A", "A2", 1, 1, "SGD"⟩] : List Holding),
        0 < h.shares ∧ dget ([("A", 10)] : Dict String ℚ) h.symbol = some 10 ∧ (0:ℚ) < 10)
    ∧ get_weights [⟨"A", "A1", 1, 1, "SGD"⟩, ⟨"A", "A2", 1, 1, "SGD"⟩] [("A", 10)] []
        = [("A", 1/2)]
    ∧ (dvalues (get_weights [⟨"A", "A1", 1, 1, "SGD"⟩, ⟨"A", "A2", 1, 1, "SGD"⟩]
        [("A", 10)] [])).sum ≠ 1 := by
  have hw : get_weights [⟨"A", "A1", 1, 1, "SGD"⟩, ⟨"A", "A2", 1, 1, "SGD"⟩] [("A", 10)] []
      = [("A", 1/2)] := by
    simp [get_weights, get_portfolio_value_sgd, get_sgd_price, dget, dset, List.foldl]
    norm_num
  refine ⟨by simp, ?_, hw, ?_⟩
  · intro h hm
    simp only [List.mem_cons, List.mem_singleton] at hm
    rcases hm with rfl | hm
    · exact ⟨by norm_num, by simp [dget], by norm_num⟩
    · rcases hm with rfl | hm
      · exact ⟨by norm_num, by simp [dget], by norm_num⟩
      · simp at hm
  · rw [hw]
    simp [dvalues]

/-- C1 (amended): for every non-empty holdings list with pairwise-distinct
symbols in which every holding's symbol has a price in the snapshot and
every holding's converted SGD value is strictly positive (positive shares,
positive price, positive effective FX rate), `get_weights` has an entry
for every holding's symbol, every entry is nonnegative, and the entries
sum to exactly 1. -/
theorem c1_weights_amended (holdings : List Holding)
    (prices_local fx_rates : Dict String ℚ)
    (hne : holdings ≠ [])
    (hnd : (holdings.map Holding.symbol).Nodup)
    (hpr : ∀ h ∈ holdings, (dget prices_local h.symbol).isSome = true)
    (hpos : ∀ h ∈ holdings, 0 < holdingValue prices_local fx_rates h) :
    (∀ h ∈ holdings,
      (dget (get_weights holdings prices_local fx_rates) h.symbol).isSome = true)
    ∧ (∀ p ∈ get_weights holdings prices_local fx_rates, 0 ≤ p.2)
    ∧ (dvalues (get_weights holdings prices_local fx_rates)).sum = 1 := by
  have hfil : holdings.filter (fun h => (dget prices_local h.symbol).isSome) = holdings :=
    List.filter_eq_self.mpr hpr
  have htot : get_portfolio_value_sgd holdings prices_local fx_rates
      = (holdings.map (holdingValue prices_local fx_rates)).sum := by
    rw [get_portfolio_value_sgd_eq_sum, hfil]
  have htpos : 0 < get_portfolio_value_sgd holdings prices_local fx_rates := by
    rw [htot]
    refine List.sum_pos _ ?_ ?_
    · intro x hx
      rcases List.mem_map.mp hx with ⟨h, hh, rfl⟩
      exact hpos h hh
    · simpa using hne
  have hw := get_weights_eq_map holdings prices_local fx_rates hpr hnd (ne_of_gt htpos)
  refine ⟨?_, ?_, ?_⟩
  · intro h hh
    rw [hw, dget_isSome_iff]
    have hk : dkeys (holdings.map fun h => (h.symbol,
        holdingValue prices_local fx_rates h
          / get_portfolio_value_sgd holdings prices_local fx_rates))
        = holdings.map Holding.symbol := by
      simp [dkeys, List.map_map]
    rw [hk]
    exact List.mem_map_of_mem _ hh
  · intro p hp
    rw [hw] at hp
    rcases List.mem_map.mp hp with ⟨h, hh, rfl⟩
    exact div_nonneg (le_of_lt (hpos h hh)) (le_of_lt htpos)
  · rw [hw]
    have hv : dvalues (holdings.map fun h => (h.symbol,
        holdingValue prices_local fx_rates h
          / get_portfolio_value_sgd holdings prices_local fx_rates))
        = holdings.map (fun h => holdingValue prices_local fx_rates h
            / get_portfolio_value_sgd holdings prices_local fx_rates) := by
      simp [dvalues, List.map_map]
    rw [hv, sum_map_div, ← htot, div_self (ne_of_gt htpos)]

/-- C1 witness: Scenario A's two distinct, fully priced, positive-value
holdings satisfy the amended hypotheses and their weights sum to 1. -/
theorem c1_weights_amended_witness :
    (dvalues (get_weights [⟨"X", "X", 100, 1, "SGD"⟩, ⟨"Y", "Y", 50, 1, "USD"⟩]
      [("X", 10), ("Y", 20)] [("USD", 27/20)])).sum = 1 := by
  have h := c1_weights_amended
    [⟨"X", "X", 100, 1, "SGD"⟩, ⟨"Y", "Y", 50, 1, "USD"⟩]
    [("X", 10), ("Y", 20)] [("USD", 27/20)]
    (by simp) (by decide)
    (by
      intro h hm
      simp only [List.mem_cons, List.mem_singleton] at hm
      rcases hm with rfl | hm
      · simp [dget]
      · rcases hm with rfl | hm
        · simp [dget]
        · simp at hm)
    (by
      intro h hm
      simp only [List.mem_cons, List.mem_singleton] at hm
      rcases hm with rfl | hm
      · simp [holdingValue, get_sgd_price, dget]
      · rcases hm with rfl | hm
        · simp [holdingValue, get_sgd_price, dget]
        · simp at hm)
  exact h.2.2

end Portfolio

namespace Portfolio

/-! ### Cap-loop stepping lemmas -/

theorem capLoop_succ_none {cap : ℚ} {ws : Dict String ℚ} (h : capStep cap ws = none)
    (n : Nat) : capLoop cap (n + 1) ws = ws := by
  simp [capLoop, h]

theorem capLoop_succ_some {cap : ℚ} {ws ws2 : Dict String ℚ}
    (h : capStep cap ws = some ws2) (n : Nat) :
    capLoop cap (n + 1) ws = capLoop cap n ws2 := by
  simp [capLoop, h]

/-- C2: for candidates X, Y, Z with scores 60, 30, 10 and cap 0.5,
`suggest_weights` returns exactly X = 0.5, Y = 0.375, Z = 0.125; the one
redistribution iteration caps X at 0.5 and hands its surplus 0.1 to Y and
Z in proportion 3:1, as the accompanying `capStep` equation shows. -/
theorem c2_scenarioB :
    capStep (1/2) [("X", 3/5), ("Y", 3/10), ("Z", 1/10)]
        = some [("X", 1/2), ("Y", 3/8), ("Z", 1/8)]
    ∧ suggest_weights ["X", "Y", "Z"] [("X", 60), ("Y", 30), ("Z", 10)] (1/2)
        = [("X", 1/2), ("Y", 3/8), ("Z", 1/8)] := by
  have h1 : capStep (1/2) [("X", 3/5), ("Y", 3/10), ("Z", 1/10)]
      = some [("X", 1/2), ("Y", 3/8), ("Z", 1/8)] := by
    simp [capStep, eps, decide_eq_true_eq]
    norm_num
  have h2 : capStep (1/2) [("X", 1/2), ("Y", 3/8), ("Z", 1/8)] = none := by
    simp [capStep, eps, decide_eq_true_eq]
    norm_num
  have hl : capLoop (1/2) 100 [("X", 3/5), ("Y", 3/10), ("Z", 1/10)]
      = [("X", 1/2), ("Y", 3/8), ("Z", 1/8)] := by
    rw [show (100 : Nat) = 99 + 1 from rfl, capLoop_succ_some h1,
      show (99 : Nat) = 98 + 1 from rfl, capLoop_succ_none h2]
  refine ⟨h1, ?_⟩
  have hv : validOf ["X", "Y", "Z"] [("X", 60), ("Y", 30), ("Z", 10)] = ["X", "Y", "Z"] := by
    simp [validOf, dget]
  have hr : rawW ["X", "Y", "Z"] [("X", 60), ("Y", 30), ("Z", 10)]
      = [("X", (60:ℚ)), ("Y", 30), ("Z", 10)] := by
    simp [rawW, dget, dset, List.foldl]
  have hn : normW [("X", (60:ℚ)), ("Y", 30), ("Z", 10)]
      = [("X", 3/5), ("Y", 3/10), ("Z", 1/10)] := by
    simp [normW, dvalues]
    norm_num
  have hf : finalNorm [("X", (1:ℚ)/2), ("Y", 3/8), ("Z", 1/8)]
      = [("X", 1/2), ("Y", 3/8), ("Z", 1/8)] := by
    simp [finalNorm, dvalues]
    norm_num
  have ha : addZeros ["X", "Y", "Z"] [("X", (1:ℚ)/2), ("Y", 3/8), ("Z", 1/8)]
      = [("X", 1/2), ("Y", 3/8), ("Z", 1/8)] := by
    simp [addZeros, dget, List.foldl]
  unfold suggest_weights
  rw [hv, if_neg (by decide), hr, hn, hl, hf, ha]

/-- C10: with two equal positive scores and cap 0.25 the surplus above the
cap is 1/2 (at least 1e-9) but, after capping, no entry lies strictly
below cap minus 1e-9, so the loop body breaks without redistributing:
`capStep` returns `none`, every `capLoop` run keeps the previous uncapped
score-proportional weights, and `suggest_weights` returns weight 1/2 for
each candidate, which exceeds the cap 1/4. -/
theorem c10_cap_infeasible :
    eps ≤ ((([("A", (1:ℚ)/2), ("B", 1/2)]).filter (fun p => (1:ℚ)/4 < p.2)).map
        (fun p => p.2 - 1/4)).sum
    ∧ (([("A", (1:ℚ)/2), ("B", 1/2)]).map (fun p => (p.1, min p.2 ((1:ℚ)/4)))).filter
        (fun p => p.2 < 1/4 - eps) = []
    ∧ capStep (1/4) [("A", 1/2), ("B", 1/2)] = none
    ∧ (∀ n, capLoop (1/4) (n + 1) [("A", 1/2), ("B", 1/2)] = [("A", 1/2), ("B", 1/2)])
    ∧ suggest_weights ["A", "B"] [("A", 50), ("B", 50)] (1/4) = [("A", 1/2), ("B", 1/2)]
    ∧ (1:ℚ)/4 < 1/2 := by
  have h2 : capStep (1/4) [("A", 1/2), ("B", 1/2)] = none := by
    simp [capStep, eps, decide_eq_true_eq]
    norm_num
  have hl : capLoop (1/4) 100 [("A", 1/2), ("B", 1/2)] = [("A", 1/2), ("B", 1/2)] := by
    rw [show (100 : Nat) = 99 + 1 from rfl, capLoop_succ_none h2]
  refine ⟨?_, ?_, h2, fun n => capLoop_succ_none h2 n, ?_, by norm_num⟩
  · simp [eps, List.filter, decide_eq_true_eq]
    norm_num
  · simp [eps, List.filter, decide_eq_true_eq]
    norm_num
  · have hv : validOf ["A", "B"] [("A", 50), ("B", 50)] = ["A", "B"] := by
      simp [validOf, dget]
    have hr : rawW ["A", "B"] [("A", 50), ("B", 50)] = [("A", (50:ℚ)), ("B", 50)] := by
      simp [rawW, dget, dset, List.foldl]
    have hn : normW [("A", (50:ℚ)), ("B", 50)] = [("A", 1/2), ("B", 1/2)] := by
      simp [normW, dvalues]
      norm_num
    have hf : finalNorm [("A", (1:ℚ)/2), ("B", 1/2)] = [("A", 1/2), ("B", 1/2)] := by
      simp [finalNorm, dvalues]
      norm_num
    have ha : addZeros ["A", "B"] [("A", (1:ℚ)/2), ("B", 1/2)]
        = [("A", 1/2), ("B", 1/2)] := by
      simp [addZeros, dget, List.foldl]
    unfold suggest_weights
    rw [hv, if_neg (by decide), hr, hn, hl, hf, ha]

end Portfolio

namespace Portfolio

/-! ### Rebalancing lemmas -/

theorem mem_firstDedup (l : List String) (x : String) :
    x ∈ firstDedup l ↔ x ∈ l := by
  induction l with
  | nil => simp [firstDedup]
  | cons c rest ih =>
    simp only [firstDedup, List.mem_cons, List.mem_filter, decide_eq_true_eq]
    constructor
    · rintro (rfl | ⟨hx, _⟩)
      · exact Or.inl rfl
      · exact Or.inr (ih.mp hx)
    · rintro (rfl | hx)
      · exact Or.inl rfl
      · by_cases hc : x = c
        · exact Or.inl hc
        · exact Or.inr ⟨ih.mpr hx, hc⟩

theorem firstDedup_nodup (l : List String) : (firstDedup l).Nodup := by
  induction l with
  | nil => simp [firstDedup]
  | cons c rest ih =>
    simp only [firstDedup, List.nodup_cons]
    refine ⟨?_, List.Nodup.filter _ ih⟩
    intro hc
    rcases List.mem_filter.mp hc with ⟨_, hne⟩
    simp at hne

theorem mkAction_spec (cw sw : Dict String ℚ) (cm : Dict String String)
    (t : ℚ) (sym : String) :
    (mkAction cw sw cm t sym).symbol = sym
    ∧ (mkAction cw sw cm t sym).current_pct = (dget cw sym).getD 0 * 100
    ∧ (mkAction cw sw cm t sym).suggested_pct = (dget sw sym).getD 0 * 100
    ∧ (mkAction cw sw cm t sym).delta_pct
        = (mkAction cw sw cm t sym).suggested_pct - (mkAction cw sw cm t sym).current_pct
    ∧ (mkAction cw sw cm t sym).delta_sgd = (mkAction cw sw cm t sym).delta_pct / 100 * t
    ∧ ((mkAction cw sw cm t sym).action = "Hold" ↔ |(mkAction cw sw cm t sym).delta_pct| < 1)
    ∧ (1 ≤ (mkAction cw sw cm t sym).delta_pct → (mkAction cw sw cm t sym).action = "Buy")
    ∧ ((mkAction cw sw cm t sym).delta_pct ≤ -1 → (mkAction cw sw cm t sym).action = "Sell") := by
  refine ⟨rfl, rfl, rfl, rfl, rfl, ?_, ?_, ?_⟩
  · by_cases habs : |(dget sw sym).getD 0 * 100 - (dget cw sym).getD 0 * 100| < 1
    · simp [mkAction, habs]
    · have hne : (mkAction cw sw cm t sym).action ≠ "Hold" := by
        simp only [mkAction, if_neg habs]
        split <;> decide
      simp only [mkAction] at hne ⊢
      rw [if_neg habs]
      rw [if_neg habs] at hne
      exact ⟨fun he => absurd he hne, fun hlt => absurd hlt habs⟩
  · intro hd
    have habs : ¬ |(dget sw sym).getD 0 * 100 - (dget cw sym).getD 0 * 100| < 1 := by
      simp only [mkAction] at hd
      have := le_abs_self ((dget sw sym).getD 0 * 100 - (dget cw sym).getD 0 * 100)
      intro hc
      linarith
    have hpos : 0 < (dget sw sym).getD 0 * 100 - (dget cw sym).getD 0 * 100 := by
      simp only [mkAction] at hd
      linarith
    simp [mkAction, habs, hpos]
  · intro hd
    have habs : ¬ |(dget sw sym).getD 0 * 100 - (dget cw sym).getD 0 * 100| < 1 := by
      simp only [mkAction] at hd
      have := neg_abs_le ((dget sw sym).getD 0 * 100 - (dget cw sym).getD 0 * 100)
      intro hc
      linarith
    have hpos : ¬ 0 < (dget sw sym).getD 0 * 100 - (dget cw sym).getD 0 * 100 := by
      simp only [mkAction] at hd
      linarith
    simp [mkAction, habs, hpos]

theorem rebalancing_symbols (holdings : List Holding)
    (prices_local fx_rates suggested_weights : Dict String ℚ) (total_sgd : ℚ) :
    (get_rebalancing_actions holdings prices_local fx_rates suggested_weights
        total_sgd).map RebalancingAction.symbol
      = List.insertionSort (fun a b => strLe a b = true)
          (firstDedup (dkeys (get_weights holdings prices_local fx_rates)
            ++ dkeys suggested_weights)) := by
  simp only [get_rebalancing_actions, List.map_map]
  have he : (RebalancingAction.symbol ∘ mkAction (get_weights holdings prices_local fx_rates)
      suggested_weights (holdings.foldl (fun d h => dset d h.symbol h.company) [])
      total_sgd) = fun sym => sym := by
    funext sym
    rfl
  rw [he, List.map_id']

/-- C3: `get_rebalancing_actions` emits exactly one record per symbol in the
union of the current-weight keys and the suggested-weight keys, with
`current_pct = weight*100`, `suggested_pct = target*100`,
`delta_pct = suggested_pct - current_pct`,
`delta_sgd = delta_pct/100 * total`, and action `Hold` exactly when
`|delta_pct| < 1`, `Buy` whenever `delta_pct >= 1`, `Sell` whenever
`delta_pct <= -1`. -/
theorem c3_rebalancing_spec (holdings : List Holding)
    (prices_local fx_rates suggested_weights : Dict String ℚ) (total_sgd : ℚ) :
    ((get_rebalancing_actions holdings prices_local fx_rates suggested_weights
        total_sgd).map RebalancingAction.symbol).Nodup
    ∧ (∀ s, s ∈ (get_rebalancing_actions holdings prices_local fx_rates suggested_weights
          total_sgd).map RebalancingAction.symbol ↔
        ((dget (get_weights holdings prices_local fx_rates) s).isSome = true
          ∨ (dget suggested_weights s).isSome = true))
    ∧ (∀ r ∈ get_rebalancing_actions holdings prices_local fx_rates suggested_weights
          total_sgd,
        r.current_pct = (dget (get_weights holdings prices_local fx_rates) r.symbol).getD 0 * 100
        ∧ r.suggested_pct = (dget suggested_weights r.symbol).getD 0 * 100
        ∧ r.delta_pct = r.suggested_pct - r.current_pct
        ∧ r.delta_sgd = r.delta_pct / 100 * total_sgd
        ∧ (r.action = "Hold" ↔ |r.delta_pct| < 1)
        ∧ (1 ≤ r.delta_pct → r.action = "Buy")
        ∧ (r.delta_pct ≤ -1 → r.action = "Sell")) := by
  have hsym := rebalancing_symbols holdings prices_local fx_rates suggested_weights total_sgd
  refine ⟨?_, ?_, ?_⟩
  · rw [hsym]
    exact ((List.perm_insertionSort _ _).nodup_iff).mpr (firstDedup_nodup _)
  · intro s
    rw [hsym]
    rw [(List.perm_insertionSort _ _).mem_iff, mem_firstDedup, List.mem_append]
    rw [← dget_isSome_iff, ← dget_isSome_iff]
  · intro r hr
    simp only [get_rebalancing_actions] at hr
    rcases List.mem_map.mp hr with ⟨sym, _, rfl⟩
    have h := mkAction_spec (get_weights holdings prices_local fx_rates) suggested_weights
      (holdings.foldl (fun d h => dset d h.symbol h.company) []) total_sgd sym
    rcases h with ⟨he, h1, h2, h3, h4, h5, h6, h7⟩
    rw [he]
    exact ⟨h1, h2, h3, h4, h5, h6, h7⟩

end Portfolio

namespace Portfolio

/-- C3 witness: Scenario C at a concrete portfolio — current weight of "A" is
0.30, its target weight 0.20 and the total 10000; the theorem's field
equations and classification give delta_pct = -10, delta_sgd = -1000 and
action "Sell" for the emitted record. -/
theorem c3_rebalancing_witness :
    ((⟨"A", "Alpha", 30, 20, -10, -1000, "Sell"⟩ : RebalancingAction)
      ∈ get_rebalancing_actions [⟨"A", "Alpha", 30, 1, "SGD"⟩, ⟨"B", "Beta", 70, 1, "SGD"⟩]
          [("A", 1), ("B", 1)] [] [("A", 1/5), ("B", 4/5)] 10000)
    ∧ (⟨"A", "Alpha", 30, 20, -10, -1000, "Sell"⟩ : RebalancingAction).action = "Sell"
    ∧ (⟨"A", "Alpha", 30, 20, -10, -1000, "Sell"⟩ : RebalancingAction).delta_pct = -10
    ∧ (⟨"A", "Alpha", 30, 20, -10, -1000, "Sell"⟩ : RebalancingAction).delta_sgd = -1000 := by
  have hw : get_weights [⟨"A", "Alpha", 30, 1, "SGD"⟩, ⟨"B", "Beta", 70, 1, "SGD"⟩]
      [("A", 1), ("B", 1)] [] = [("A", 3/10), ("B", 7/10)] := by
    simp [get_weights, get_portfolio_value_sgd, get_sgd_price, dget, dset, List.foldl]
    norm_num
  have hs : List.insertionSort (fun a b => strLe a b = true)
      (firstDedup (dkeys [("A", (3:ℚ)/10), ("B", 7/10)]
        ++ dkeys [("A", (1:ℚ)/5), ("B", 4/5)])) = ["A", "B"] := by decide
  have hacts : get_rebalancing_actions
      [⟨"A", "Alpha", 30, 1, "SGD"⟩, ⟨"B", "Beta", 70, 1, "SGD"⟩]
      [("A", 1), ("B", 1)] [] [("A", 1/5), ("B", 4/5)] 10000
      = [⟨"A", "Alpha", 30, 20, -10, -1000, "Sell"⟩,
         ⟨"B", "Beta", 70, 80, 10, 1000, "Buy"⟩] := by
    simp only [get_rebalancing_actions]
    rw [hw, hs]
    simp [mkAction, dget, dset, dkeys, List.foldl]
    norm_num
  have hmem : (⟨"A", "Alpha", 30, 20, -10, -1000, "Sell"⟩ : RebalancingAction)
      ∈ get_rebalancing_actions [⟨"A", "Alpha", 30, 1, "SGD"⟩, ⟨"B", "Beta", 70, 1, "SGD"⟩]
          [("A", 1), ("B", 1)] [] [("A", 1/5), ("B", 4/5)] 10000 := by
    rw [hacts]
    simp
  have h := (c3_rebalancing_spec [⟨"A", "Alpha", 30, 1, "SGD"⟩, ⟨"B", "Beta", 70, 1, "SGD"⟩]
    [("A", 1), ("B", 1)] [] [("A", 1/5), ("B", 4/5)] 10000).2.2 _ hmem
  exact ⟨hmem, h.2.2.2.2.2.2 (by norm_num), rfl, rfl⟩

end Portfolio

namespace Portfolio

/-! ### Solver invariants -/

theorem eps_pos : 0 < eps := by norm_num [eps]

theorem dkeys_map_fst_eq (l : Dict String ℚ) (f : String × ℚ → String × ℚ)
    (hf : ∀ p, (f p).1 = p.1) : dkeys (l.map f) = dkeys l := by
  simp only [dkeys, List.map_map]
  exact List.map_congr_left (fun p _ => hf p)

theorem sum_map_scaled {β : Type} (l : List β) (g : β → ℚ) (a : ℚ) :
    (l.map (fun b => a * g b)).sum = a * (l.map g).sum := by
  induction l with
  | nil => simp
  | cons x rest ih => simp [ih, mul_add]

theorem sum_min_add_surplus (cap : ℚ) (l : Dict String ℚ) :
    (dvalues (l.map (fun p => (p.1, min p.2 cap)))).sum
      + ((l.filter (fun p => cap < p.2)).map (fun p => p.2 - cap)).sum
    = (dvalues l).sum := by
  induction l with
  | nil => simp [dvalues]
  | cons p rest ih =>
    by_cases hc : cap < p.2
    · have hmin : min p.2 cap = cap := min_eq_right (le_of_lt hc)
      simp only [List.map_cons, List.filter_cons, dvalues] at ih ⊢
      rw [if_pos (by simpa using hc)]
      simp only [List.map_cons, List.sum_cons, hmin]
      have := ih
      linarith
    · have hmin : min p.2 cap = p.2 := min_eq_left (not_lt.mp hc)
      simp only [List.map_cons, List.filter_cons, dvalues] at ih ⊢
      rw [if_neg (by simpa using hc)]
      simp only [List.map_cons, List.sum_cons, hmin]
      linarith

theorem sum_map_add_update (P : ℚ → Prop) [DecidablePred P] (f : ℚ → ℚ)
    (l : Dict String ℚ) :
    (dvalues (l.map (fun p => if P p.2 then (p.1, p.2 + f p.2) else p))).sum
    = (dvalues l).sum + ((l.filter (fun p => P p.2)).map (fun p => f p.2)).sum := by
  induction l with
  | nil => simp [dvalues]
  | cons p rest ih =>
    by_cases hc : P p.2
    · simp only [List.map_cons, List.filter_cons, dvalues] at ih ⊢
      rw [if_pos hc, if_pos (by simpa using hc)]
      simp only [List.map_cons, List.sum_cons]
      linarith
    · simp only [List.map_cons, List.filter_cons, dvalues] at ih ⊢
      rw [if_neg hc, if_neg (by simpa using hc)]
      simp only [List.sum_cons]
      linarith

theorem capStep_some_spec {cap : ℚ} {ws ws2 : Dict String ℚ}
    (hpos : ∀ p ∈ ws, 0 < p.2) (h : capStep cap ws = some ws2) :
    (∀ p ∈ ws2, 0 < p.2) ∧ (dvalues ws2).sum = (dvalues ws).sum
      ∧ dkeys ws2 = dkeys ws := by
  simp only [capStep] at h
  by_cases h1 : ((ws.filter (fun p => cap < p.2)).map (fun p => p.2 - cap)).sum < eps
  · rw [if_pos h1] at h
    exact absurd h (by simp)
  · rw [if_neg h1] at h
    by_cases h2 : (ws.map (fun p => (p.1, min p.2 cap))).filter
        (fun p => p.2 < cap - eps) = []
    · rw [if_pos h2] at h
      exact absurd h (by simp)
    · rw [if_neg h2] at h
      injection h with h
      subst h
      rcases List.exists_mem_of_ne_nil _ h2 with ⟨q, hq⟩
      have hqc := List.mem_filter.mp hq
      rcases List.mem_map.mp hqc.1 with ⟨p0, hp0, hq0⟩
      have hqlt : q.2 < cap - eps := by
        have := hqc.2
        simpa using this
      have hcap : 0 < cap := by
        by_contra hc
        push_neg at hc
        have hmin : min p0.2 cap = cap :=
          min_eq_right (le_of_lt (lt_of_le_of_lt hc (hpos p0 hp0)))
        rw [← hq0] at hqlt
        simp only [hmin] at hqlt
        have := eps_pos
        linarith
      have hcappedpos : ∀ r ∈ ws.map (fun p => (p.1, min p.2 cap)), 0 < r.2 := by
        intro r hr
        rcases List.mem_map.mp hr with ⟨p1, hp1, rfl⟩
        exact lt_min (hpos p1 hp1) hcap
      have hutpos : 0 < (((ws.map (fun p => (p.1, min p.2 cap))).filter
          (fun p => p.2 < cap - eps)).map Prod.snd).sum := by
        refine List.sum_pos _ ?_ ?_
        · intro x hx
          rcases List.mem_map.mp hx with ⟨r, hr, rfl⟩
          exact hcappedpos r (List.mem_filter.mp hr).1
        · simp only [ne_eq, List.map_eq_nil_iff]
          exact h2
      have hsurplus : 0 < ((ws.filter (fun p => cap < p.2)).map
          (fun p => p.2 - cap)).sum := lt_of_lt_of_le eps_pos (not_lt.mp h1)
      refine ⟨?_, ?_, ?_⟩
      · intro r hr
        rcases List.mem_map.mp hr with ⟨s, hs, rfl⟩
        by_cases hcond : s.2 < cap - eps
        · rw [if_pos hcond]
          have := hcappedpos s hs
          have hd : 0 < s.2 / (((ws.map (fun p => (p.1, min p.2 cap))).filter
              (fun p => p.2 < cap - eps)).map Prod.snd).sum := div_pos this hutpos
          simp only []
          positivity
        · rw [if_neg hcond]
          exact hcappedpos s hs
      · rw [sum_map_add_update (fun x => x < cap - eps)
          (fun x => ((ws.filter (fun p => cap < p.2)).map (fun p => p.2 - cap)).sum
            * (x / (((ws.map (fun p => (p.1, min p.2 cap))).filter
                (fun p => p.2 < cap - eps)).map Prod.snd).sum))]
        rw [show (((ws.map (fun p => (p.1, min p.2 cap))).filter
            (fun p => p.2 < cap - eps)).map (fun p =>
              ((ws.filter (fun p => cap < p.2)).map (fun p => p.2 - cap)).sum
                * (p.2 / (((ws.map (fun p => (p.1, min p.2 cap))).filter
                    (fun p => p.2 < cap - eps)).map Prod.snd).sum))).sum
          = ((ws.filter (fun p => cap < p.2)).map (fun p => p.2 - cap)).sum
          from ?_]
        · have := sum_min_add_surplus cap ws
          linarith
        · rw [sum_map_scaled]
          rw [sum_map_div]
          rw [div_self (ne_of_gt hutpos), mul_one]
      · rw [dkeys_map_fst_eq _ _ (fun p => by by_cases hc : p.2 < cap - eps <;>
          simp [hc])]
        exact dkeys_map_fst_eq _ _ (fun p => rfl)

theorem capLoop_inv (cap : ℚ) (n : Nat) (ws : Dict String ℚ)
    (hpos : ∀ p ∈ ws, 0 < p.2) :
    (∀ p ∈ capLoop cap n ws, 0 < p.2)
      ∧ (dvalues (capLoop cap n ws)).sum = (dvalues ws).sum
      ∧ dkeys (capLoop cap n ws) = dkeys ws := by
  induction n generalizing ws with
  | zero => exact ⟨hpos, rfl, rfl⟩
  | succ n ih =>
    cases hstep : capStep cap ws with
    | none =>
      rw [capLoop_succ_none hstep]
      exact ⟨hpos, rfl, rfl⟩
    | some ws2 =>
      have hs := capStep_some_spec hpos hstep
      have hi := ih ws2 hs.1
      rw [capLoop_succ_some hstep]
      exact ⟨hi.1, hi.2.1.trans hs.2.1, hi.2.2.trans hs.2.2⟩

end Portfolio

namespace Portfolio

/-! ### Solver stage lemmas -/

theorem rawW_spec (valid : List String) (scores : Dict String ℚ)
    (hval : ∀ c ∈ valid, 0 < (dget scores c).getD 0) :
    (∀ p ∈ rawW valid scores, 0 < p.2)
      ∧ (valid ≠ [] → rawW valid scores ≠ [])
      ∧ (∀ k, (dget (rawW valid scores) k).isSome = true ↔ k ∈ valid) := by
  refine ⟨?_, ?_, ?_⟩
  · exact foldl_dset_values_pos valid _ [] hval (by simp)
  · intro hne
    exact foldl_dset_ne_nil valid _ [] (Or.inr hne)
  · intro k
    rw [show rawW valid scores
        = valid.foldl (fun d c => dset d c ((dget scores c).getD 0)) [] from rfl]
    rw [dget_foldl_dset]
    by_cases hk : k ∈ valid <;> simp [hk, dget]

theorem normW_spec {d : Dict String ℚ} (hpos : ∀ p ∈ d, 0 < p.2) (hne : d ≠ []) :
    (∀ p ∈ normW d, 0 < p.2) ∧ (dvalues (normW d)).sum = 1
      ∧ dkeys (normW d) = dkeys d := by
  have hspos : 0 < (dvalues d).sum := by
    refine List.sum_pos _ ?_ ?_
    · intro x hx
      rcases List.mem_map.mp hx with ⟨p, hp, rfl⟩
      exact hpos p hp
    · simp only [dvalues, ne_eq, List.map_eq_nil_iff]
      exact hne
  refine ⟨?_, ?_, dkeys_map_fst_eq _ _ (fun p => rfl)⟩
  · intro p hp
    rcases List.mem_map.mp hp with ⟨q, hq, rfl⟩
    exact div_pos (hpos q hq) hspos
  · have hv : dvalues (normW d) = d.map (fun p => p.2 / (dvalues d).sum) := by
      simp [normW, dvalues, List.map_map]
    rw [hv, sum_map_div]
    exact div_self (ne_of_gt hspos)

theorem finalNorm_of_sum_one {d : Dict String ℚ} (h : (dvalues d).sum = 1) :
    (dvalues (finalNorm d)).sum = 1 ∧ dkeys (finalNorm d) = dkeys d := by
  simp only [finalNorm, h]
  rw [if_pos one_pos]
  constructor
  · have hv : dvalues (d.map (fun p => (p.1, p.2 / 1)))
        = d.map (fun p => p.2 / 1) := by
      simp [dvalues, List.map_map]
    rw [hv, sum_map_div]
    show (dvalues d).sum / 1 = 1
    rw [h]
    norm_num
  · exact dkeys_map_fst_eq _ _ (fun p => rfl)

theorem dget_addZeros (l : List String) (d : Dict String ℚ) (k : String) :
    dget (addZeros l d) k = match dget d k with
      | some v => some v
      | none => if k ∈ l then some 0 else none := by
  induction l generalizing d with
  | nil =>
    cases hdk : dget d k <;> simp [addZeros, hdk]
  | cons c rest ih =>
    simp only [addZeros, List.foldl_cons] at ih ⊢
    by_cases hc : (dget d c).isSome = true
    · rw [if_pos hc, ih]
      cases hdk : dget d k with
      | some v => simp
      | none =>
        have hkc : ¬ k = c := by
          intro he
          rw [← he, hdk] at hc
          simp at hc
        by_cases hk : k ∈ rest <;> simp [hk, hkc]
    · rw [if_neg hc, ih]
      have hdc : dget d c = none := by
        cases hx : dget d c
        · rfl
        · rw [hx] at hc
          simp at hc
      by_cases hkc : k = c
      · subst hkc
        rw [hdc]
        rw [dget_dset]
        simp
      · rw [dget_dset]
        rw [if_neg hkc]
        cases hdk : dget d k with
        | some v => simp
        | none => by_cases hk : k ∈ rest <;> simp [hk, hkc]

theorem addZeros_sum (l : List String) (d : Dict String ℚ) :
    (dvalues (addZeros l d)).sum = (dvalues d).sum := by
  induction l generalizing d with
  | nil => rfl
  | cons c rest ih =>
    simp only [addZeros, List.foldl_cons] at ih ⊢
    by_cases hc : (dget d c).isSome = true
    · rw [if_pos hc]
      exact ih d
    · rw [if_neg hc]
      have hdc : dget d c = none := by
        cases hx : dget d c
        · rfl
        · rw [hx] at hc
          simp at hc
      rw [ih, dset_of_fresh _ hdc, dvalues_append]
      simp [dvalues]

theorem dget_equalW (candidates : List String) (c : String) (hc : c ∈ candidates) :
    dget (equalW candidates) c = some (1 / (candidates.length : ℚ)) := by
  have hne : candidates ≠ [] := by
    intro he
    rw [he] at hc
    simp at hc
  simp only [equalW, if_neg hne]
  rw [dget_foldl_dset]
  simp [hc]

end Portfolio

namespace Portfolio

/-- C6: if no candidate has a strictly positive score, `suggest_weights`
returns weight 1/N for every one of the N candidates (and the empty
mapping when there are none) instead of failing; otherwise every
zero-score candidate appears in the result with weight 0, the result's
key set is exactly the full candidate set, and after the final
renormalisation the weights sum to exactly 1. -/
theorem c6_solver_edge_spec (candidates : List String) (scores : Dict String ℚ)
    (cap : ℚ) :
    ((∀ c ∈ candidates, ¬ 0 < (dget scores c).getD 0) →
      ((candidates = [] → suggest_weights candidates scores cap = [])
        ∧ ∀ c ∈ candidates, dget (suggest_weights candidates scores cap) c
            = some (1 / (candidates.length : ℚ))))
    ∧ ((∃ c ∈ candidates, 0 < (dget scores c).getD 0) →
      ((∀ c ∈ candidates, ¬ 0 < (dget scores c).getD 0 →
          dget (suggest_weights candidates scores cap) c = some 0)
        ∧ (∀ s, (dget (suggest_weights candidates scores cap) s).isSome = true
            ↔ s ∈ candidates)
        ∧ (dvalues (suggest_weights candidates scores cap)).sum = 1)) := by
  constructor
  · intro hno
    have hveq : validOf candidates scores = [] := by
      rw [validOf, List.filter_eq_nil_iff]
      intro c hc
      simpa using hno c hc
    have hsw : suggest_weights candidates scores cap = equalW candidates := by
      unfold suggest_weights
      rw [if_pos hveq]
    constructor
    · intro hcand
      rw [hsw, equalW, if_pos hcand]
    · intro c hc
      rw [hsw]
      exact dget_equalW candidates c hc
  · intro hex
    rcases hex with ⟨c0, hc0, hpos0⟩
    have hvne : validOf candidates scores ≠ [] := by
      intro he
      have hm : c0 ∈ validOf candidates scores := by
        simp [validOf, List.mem_filter, hc0, hpos0]
      rw [he] at hm
      simp at hm
    have hunf : suggest_weights candidates scores cap
        = addZeros candidates (finalNorm (capLoop cap 100
            (normW (rawW (validOf candidates scores) scores)))) := by
      unfold suggest_weights
      rw [if_neg hvne]
    have hval : ∀ c ∈ validOf candidates scores, 0 < (dget scores c).getD 0 := by
      intro c hc
      have := (List.mem_filter.mp hc).2
      simpa using this
    have hr := rawW_spec (validOf candidates scores) scores hval
    have hrne : rawW (validOf candidates scores) scores ≠ [] := hr.2.1 hvne
    have hn := normW_spec hr.1 hrne
    have hl := capLoop_inv cap 100 _ hn.1
    have hsum1 : (dvalues (capLoop cap 100
        (normW (rawW (validOf candidates scores) scores)))).sum = 1 :=
      hl.2.1.trans hn.2.1
    have hf := finalNorm_of_sum_one hsum1
    have hkeys : dkeys (finalNorm (capLoop cap 100
        (normW (rawW (validOf candidates scores) scores))))
        = dkeys (rawW (validOf candidates scores) scores) := by
      rw [hf.2, hl.2.2, hn.2.2]
    have hsome : ∀ s, (dget (finalNorm (capLoop cap 100
        (normW (rawW (validOf candidates scores) scores)))) s).isSome = true
        ↔ s ∈ validOf candidates scores := by
      intro s
      rw [dget_isSome_iff, hkeys, ← dget_isSome_iff]
      exact hr.2.2 s
    refine ⟨?_, ?_, ?_⟩
    · intro c hc hneg
      rw [hunf, dget_addZeros]
      have hnotin : c ∉ validOf candidates scores := fun hmem => hneg (hval c hmem)
      have hnone : dget (finalNorm (capLoop cap 100
          (normW (rawW (validOf candidates scores) scores)))) c = none := by
        cases hx : dget (finalNorm (capLoop cap 100
            (normW (rawW (validOf candidates scores) scores)))) c with
        | none => rfl
        | some v =>
          have hm := (hsome c).mp (by rw [hx]; rfl)
          exact absurd hm hnotin
      rw [hnone]
      simp [hc]
    · intro s
      rw [hunf, dget_addZeros]
      cases hx : dget (finalNorm (capLoop cap 100
          (normW (rawW (validOf candidates scores) scores)))) s with
      | some v =>
        have hs : s ∈ validOf candidates scores := (hsome s).mp (by rw [hx]; rfl)
        have hsc : s ∈ candidates := (List.mem_filter.mp hs).1
        simp [hsc]
      | none =>
        by_cases hs : s ∈ candidates <;> simp [hs]
    · rw [hunf, addZeros_sum]
      exact hf.1

/-- C6 witness: with no positive score the two candidates each get 1/2; with
one positive-score candidate the zero-score candidate gets weight 0, the
keys cover the candidate set and the weights sum to 1. -/
theorem c6_solver_edge_spec_witness :
    dget (suggest_weights ["A", "B"] [] (1/4)) "A" = some (1/2)
    ∧ dget (suggest_weights ["Z", "P"] [("P", 5)] (1/4)) "Z" = some 0
    ∧ ((dget (suggest_weights ["Z", "P"] [("P", 5)] (1/4)) "Z").isSome = true
        ↔ "Z" ∈ ["Z", "P"])
    ∧ (dvalues (suggest_weights ["Z", "P"] [("P", 5)] (1/4))).sum = 1 := by
  have h1 := (c6_solver_edge_spec ["A", "B"] [] (1/4)).1
    (by intro c hc; simp [dget])
  have h2 := (c6_solver_edge_spec ["Z", "P"] [("P", 5)] (1/4)).2
    ⟨"P", by simp, by simp [dget]⟩
  refine ⟨?_, h2.1 "Z" (by simp) (by simp [dget]), h2.2.1 "Z", h2.2.2⟩
  have hA := h1.2 "A" (by simp)
  rw [hA]
  norm_num

end Portfolio

namespace Portfolio

/-! ### Historical value: index lemmas -/

theorem mem_interIdx (a b : List Nat) (d : Nat) :
    d ∈ interIdx a b ↔ d ∈ a ∧ d ∈ b := by
  simp [interIdx, List.mem_filter]

theorem foldl_inter_mem (l : List TSeries) (a : List Nat) (d : Nat) :
    d ∈ l.foldl (fun acc s => interIdx acc (sIndex s)) a
      ↔ d ∈ a ∧ ∀ s ∈ l, d ∈ sIndex s := by
  induction l generalizing a with
  | nil => simp
  | cons s rest ih =>
    simp only [List.foldl_cons]
    rw [ih, mem_interIdx]
    constructor
    · rintro ⟨⟨h1, h2⟩, h3⟩
      refine ⟨h1, ?_⟩
      intro t ht
      rcases List.mem_cons.mp ht with rfl | ht
      · exact h2
      · exact h3 t ht
    · rintro ⟨h1, h2⟩
      exact ⟨⟨h1, h2 s (by simp)⟩, fun t ht => h2 t (by simp [ht])⟩

theorem foldl_inter_nodup (l : List TSeries) {a : List Nat} (h : a.Nodup) :
    (l.foldl (fun acc s => interIdx acc (sIndex s)) a).Nodup := by
  induction l generalizing a with
  | nil => exact h
  | cons s rest ih =>
    simp only [List.foldl_cons]
    exact ih (h.filter _)

theorem commonIndexOf_cons_mem (s0 : TSeries) (rest : List TSeries) (d : Nat) :
    d ∈ commonIndexOf (s0 :: rest) ↔ ∀ s ∈ s0 :: rest, d ∈ sIndex s := by
  simp only [commonIndexOf]
  rw [foldl_inter_mem]
  constructor
  · rintro ⟨h1, h2⟩
    intro t ht
    rcases List.mem_cons.mp ht with rfl | ht
    · exact h1
    · exact h2 t ht
  · intro h
    exact ⟨h s0 (by simp), fun t ht => h t (by simp [ht])⟩

theorem commonIndexOf_cons_nodup (s0 : TSeries) (rest : List TSeries)
    (h : (sIndex s0).Nodup) : (commonIndexOf (s0 :: rest)).Nodup := by
  simp only [commonIndexOf]
  exact foldl_inter_nodup rest h

/-! ### Historical value: series lemmas -/

theorem ffillAux_all_isSome (l : List (Option ℚ)) (prev : Option ℚ)
    (h : ∀ o ∈ l, o.isSome = true) : ffillAux prev l = l := by
  induction l generalizing prev with
  | nil => rfl
  | cons o rest ih =>
    cases o with
    | none =>
      have := h none (by simp)
      simp at this
    | some v =>
      simp only [ffillAux]
      rw [ih _ (fun o ho => h o (by simp [ho]))]

theorem ffillAux_length (l : List (Option ℚ)) (prev : Option ℚ) :
    (ffillAux prev l).length = l.length := by
  induction l generalizing prev with
  | nil => rfl
  | cons o rest ih =>
    cases o <;> simp [ffillAux, ih]

theorem fxSeries_length (fx_histories : Dict String TSeries) (currency : String)
    (idx : List Nat) : (fxSeries fx_histories currency idx).length = idx.length := by
  unfold fxSeries
  by_cases hc : currency = "SGD"
  · simp [hc, constS]
  · rw [if_neg hc]
    cases hfx : dget fx_histories currency with
    | none => simp [constS]
    | some fxh =>
      by_cases he : fxh = []
      · simp [he, constS]
      · simp [he, fillna, ffill, ffillAux_length, reindexO]

theorem fxSeries_all_isSome (fx_histories : Dict String TSeries) (currency : String)
    (idx : List Nat) : ∀ o ∈ fxSeries fx_histories currency idx, o.isSome = true := by
  unfold fxSeries
  by_cases hc : currency = "SGD"
  · rw [if_pos hc]
    intro o ho
    rcases List.mem_map.mp ho with ⟨_, _, rfl⟩
    rfl
  · rw [if_neg hc]
    cases hfx : dget fx_histories currency with
    | none =>
      intro o ho
      rcases List.mem_map.mp ho with ⟨_, _, rfl⟩
      rfl
    | some fxh =>
      intro o ho
      have ho2 : o ∈ (if fxh = [] then constS idx 1
          else fillna 1 (ffill (reindexO fxh idx))) := ho
      by_cases he : fxh = []
      · rw [if_pos he] at ho2
        rcases List.mem_map.mp ho2 with ⟨_, _, rfl⟩
        rfl
      · rw [if_neg he] at ho2
        rcases List.mem_map.mp ho2 with ⟨q, _, rfl⟩
        rfl

theorem zipWith_map_same {α β γ δ : Type} (f : β → γ → δ) (g1 : α → β) (g2 : α → γ)
    (l : List α) :
    List.zipWith f (l.map g1) (l.map g2) = l.map (fun x => f (g1 x) (g2 x)) := by
  induction l with
  | nil => rfl
  | cons x rest ih => simp [ih]

theorem dget_zip_map {α : Type} (common : List Nat) (f : Nat → α) (hnd : common.Nodup)
    (d : Nat) (hd : d ∈ common) :
    dget (common.zip (common.map f)) d = some (f d) := by
  induction common with
  | nil => simp at hd
  | cons c rest ih =>
    simp only [List.map_cons, List.zip_cons_cons]
    by_cases hdc : d = c
    · subst hdc
      simp [dget]
    · simp only [dget, if_neg hdc]
      exact ih (List.nodup_cons.mp hnd).2 (by
        rcases List.mem_cons.mp hd with rfl | h
        · exact absurd rfl hdc
        · exact h)

end Portfolio

namespace Portfolio

theorem dget_zip_get {α : Type} (idx : List Nat) (vals : List α) (hnd : idx.Nodup)
    (i : Nat) (hi : i < idx.length) (hlen : vals.length = idx.length) :
    dget (idx.zip vals) idx[i] = vals[i]? := by
  induction idx generalizing vals i with
  | nil => exact absurd hi (by simp)
  | cons c rest ih =>
    cases vals with
    | nil => simp at hlen
    | cons v vrest =>
      cases i with
      | zero => simp [dget]
      | succ j =>
        have hj : j < rest.length := by simpa using hi
        have hne : rest[j] ≠ c := by
          intro he
          exact (List.nodup_cons.mp hnd).1 (he ▸ List.getElem_mem hj)
        simp only [List.zip_cons_cons, List.getElem_cons_succ, dget,
          List.getElem?_cons_succ]
        rw [if_neg hne]
        exact ih vrest (List.nodup_cons.mp hnd).2 j hj (by simpa using hlen)

theorem fxSeries_eq_map (fx_histories : Dict String TSeries) (currency : String)
    (common : List Nat) (hnd : common.Nodup) :
    fxSeries fx_histories currency common
      = common.map (fun d => some (fxValAt fx_histories currency common d)) := by
  refine List.ext_getElem ?_ ?_
  · rw [fxSeries_length]
    simp
  · intro n h1 h2
    have hn : n < common.length := by simpa using h2
    obtain ⟨v, hv⟩ : ∃ v, (fxSeries fx_histories currency common)[n] = some v :=
      Option.isSome_iff_exists.mp
        (fxSeries_all_isSome fx_histories currency common _
          (List.getElem_mem h1))
    rw [hv, List.getElem_map]
    unfold fxValAt
    rw [dget_zip_get common (fxSeries fx_histories currency common) hnd n hn
      (fxSeries_length fx_histories currency common)]
    rw [List.getElem?_eq_getElem h1, hv]

end Portfolio

namespace Portfolio

theorem histTotal_fold_eq (ph fxh : Dict String TSeries) (common : List Nat)
    (hne : common ≠ []) (hnd : common.Nodup) (l : List Holding) :
    ∀ (g : Nat → ℚ),
    (∀ h ∈ l, ∀ hist, availHist ph h = some hist →
      ∀ d ∈ common, (dget hist d).isSome = true) →
    l.foldl (fun acc h =>
      match availHist ph h with
      | none => acc
      | some hist =>
        let hist_aligned := reindexO hist common
        if hist_aligned.all (fun o => o.isNone) then acc
        else
          List.zipWith addO acc (List.zipWith mulO
            ((ffill hist_aligned).map (fun o => o.map (fun v => h.shares * v)))
            (fxSeries fxh h.currency common))) (common.map (fun d => some (g d)))
    = common.map (fun d => some (g d
        + (l.map (fun h => histContrib ph fxh common h d)).sum)) := by
  induction l with
  | nil =>
    intro g _
    simp
  | cons h rest ih =>
    intro g hsub
    simp only [List.foldl_cons]
    cases havail : availHist ph h with
    | none =>
      simp only [havail]
      rw [ih g (fun x hx => hsub x (by simp [hx]))]
      apply List.map_congr_left
      intro d _
      simp [histContrib, havail]
    | some hist =>
      have hall : ∀ o ∈ reindexO hist common, o.isSome = true := by
        intro o ho
        rcases List.mem_map.mp ho with ⟨d, hd, rfl⟩
        exact hsub h (by simp) hist havail d hd
      have hfalse : (reindexO hist common).all (fun o => o.isNone) = false := by
        rcases List.exists_mem_of_ne_nil common hne with ⟨d0, hd0⟩
        have h1 : dget hist d0 ∈ reindexO hist common :=
          List.mem_map.mpr ⟨d0, hd0, rfl⟩
        cases hb : (reindexO hist common).all (fun o => o.isNone) with
        | false => rfl
        | true =>
          have h2 := List.all_eq_true.mp hb _ h1
          have h3 := hall _ h1
          rw [Option.isNone_iff_eq_none] at h2
          rw [h2] at h3
          simp at h3
      simp only [havail, hfalse, Bool.false_eq_true, if_false]
      rw [show ffill (reindexO hist common) = reindexO hist common from
        ffillAux_all_isSome _ none hall]
      simp only [reindexO, List.map_map, fxSeries_eq_map fxh h.currency common hnd,
        zipWith_map_same, Function.comp]
      have hacc : common.map (fun x => addO (some (g x))
            (mulO (Option.map (fun v => h.shares * v) (dget hist x))
              (some (fxValAt fxh h.currency common x))))
          = common.map (fun d => some (g d
              + histContrib ph fxh common h d)) := by
        apply List.map_congr_left
        intro d hd
        have hs := hsub h (by simp) hist havail d hd
        cases hdg : dget hist d with
        | none =>
          rw [hdg] at hs
          simp at hs
        | some pv =>
          simp [addO, mulO, histContrib, havail, hdg]
      rw [hacc]
      have h2 := ih (fun d => g d + histContrib ph fxh common h d)
        (fun x hx => hsub x (by simp [hx]))
      refine Eq.trans h2 ?_
      apply List.map_congr_left
      intro d _
      simp only [List.map_cons, List.sum_cons, Option.some.injEq]
      rw [add_assoc]

end Portfolio

namespace Portfolio

/-- C5: the date index of `get_historical_value` is exactly the intersection
of the date indices of the holdings' available price histories — a date
missing from any one of them appears nowhere in the result — and on each
such date the value is the sum over holdings of `shares * that day's local
price * that day's FX factor` (forward-filled, defaulting to 1 for the
reporting currency or when no FX history exists). -/
theorem c5_historical_spec (holdings : List Holding) (ph fxh : Dict String TSeries)
    (hav : holdings.filterMap (availHist ph) ≠ [])
    (hnd : ∀ s ∈ holdings.filterMap (availHist ph), (sIndex s).Nodup) :
    (∀ d, d ∈ (get_historical_value holdings ph fxh).map Prod.fst
        ↔ ∀ s ∈ holdings.filterMap (availHist ph), d ∈ sIndex s)
    ∧ ∀ d ∈ (get_historical_value holdings ph fxh).map Prod.fst,
        dget (get_historical_value holdings ph fxh) d
          = some (some ((holdings.map (fun h => histContrib ph fxh
              ((get_historical_value holdings ph fxh).map Prod.fst) h d)).sum)) := by
  have hhold : holdings ≠ [] := by
    intro he
    rw [he] at hav
    simp at hav
  have hph : ph ≠ [] := by
    intro he
    apply hav
    apply List.filterMap_eq_nil_iff.mpr
    intro h _
    rw [he]
    simp [availHist, dget]
  have hcond : ¬ (holdings = [] ∨ ph = []) := by
    rintro (he | he)
    · exact hhold he
    · exact hph he
  have hresult : get_historical_value holdings ph fxh
      = (if commonIndexOf (holdings.filterMap (availHist ph)) = [] then []
         else (commonIndexOf (holdings.filterMap (availHist ph))).zip
           (histTotal holdings ph fxh
             (commonIndexOf (holdings.filterMap (availHist ph))))) := by
    unfold get_historical_value
    rw [if_neg hcond, if_neg hav]
  obtain ⟨s0, rest, hcase⟩ : ∃ s0 rest, holdings.filterMap (availHist ph) = s0 :: rest := by
    cases hc : holdings.filterMap (availHist ph) with
    | nil => exact absurd hc hav
    | cons a b => exact ⟨a, b, rfl⟩
  have hndc : (commonIndexOf (holdings.filterMap (availHist ph))).Nodup := by
    rw [hcase]
    exact commonIndexOf_cons_nodup s0 rest (hnd s0 (by rw [hcase]; simp))
  have hmemc : ∀ d, d ∈ commonIndexOf (holdings.filterMap (availHist ph))
      ↔ ∀ s ∈ holdings.filterMap (availHist ph), d ∈ sIndex s := by
    intro d
    rw [hcase]
    exact commonIndexOf_cons_mem s0 rest d
  have hsub : ∀ h ∈ holdings, ∀ hist, availHist ph h = some hist →
      ∀ d ∈ commonIndexOf (holdings.filterMap (availHist ph)),
        (dget hist d).isSome = true := by
    intro h hh hist hav2 d hd
    have hmem : hist ∈ holdings.filterMap (availHist ph) :=
      List.mem_filterMap.mpr ⟨h, hh, hav2⟩
    have hmem2 := (hmemc d).mp hd hist hmem
    rw [dget_isSome_iff]
    exact hmem2
  by_cases hce : commonIndexOf (holdings.filterMap (availHist ph)) = []
  · have hres2 : get_historical_value holdings ph fxh = [] := by
      rw [hresult, if_pos hce]
    constructor
    · intro d
      rw [hres2]
      simp only [List.map_nil, List.not_mem_nil, false_iff]
      intro hall
      have hdc := (hmemc d).mpr hall
      rw [hce] at hdc
      simp at hdc
    · intro d hd
      rw [hres2] at hd
      simp at hd
  · have hres2 : get_historical_value holdings ph fxh
        = (commonIndexOf (holdings.filterMap (availHist ph))).zip
            (histTotal holdings ph fxh
              (commonIndexOf (holdings.filterMap (availHist ph)))) := by
      rw [hresult, if_neg hce]
    have htot : histTotal holdings ph fxh (commonIndexOf (holdings.filterMap (availHist ph)))
        = (commonIndexOf (holdings.filterMap (availHist ph))).map (fun d =>
            some ((holdings.map (fun h => histContrib ph fxh
              (commonIndexOf (holdings.filterMap (availHist ph))) h d)).sum)) := by
      have h0 := histTotal_fold_eq ph fxh
        (commonIndexOf (holdings.filterMap (availHist ph))) hce hndc holdings
        (fun _ => 0) hsub
      refine Eq.trans ?_ (h0.trans ?_)
      · rfl
      · apply List.map_congr_left
        intro d _
        simp
    have hindex : (get_historical_value holdings ph fxh).map Prod.fst
        = commonIndexOf (holdings.filterMap (availHist ph)) := by
      rw [hres2, htot]
      rw [List.map_fst_zip]
      simp
    constructor
    · intro d
      rw [hindex]
      exact hmemc d
    · intro d hd
      rw [hindex] at hd
      rw [hindex, hres2, htot]
      rw [dget_zip_map _ _ hndc d hd]

end Portfolio

namespace Portfolio

/-- C5 witness: Scenario D — two holdings whose price histories each have 10
dates but overlap on exactly the 3 dates 8, 9, 10: the reconstructed
series has exactly those 3 points, and the value at date 9 is
`2*9*1 + 3*2*1.35 = 26.1`. -/
theorem c5_historical_witness :
    ((get_historical_value
        [⟨"AAA", "A", 2, 1, "SGD"⟩, ⟨"BBB", "B", 3, 1, "USD"⟩]
        [("AAA", [(1,1),(2,2),(3,3),(4,4),(5,5),(6,6),(7,7),(8,8),(9,9),(10,10)]),
         ("BBB", [(8,2),(9,2),(10,2),(11,2),(12,2),(13,2),(14,2),(15,2),(16,2),(17,2)])]
        [("USD", [(8, 27/20)])]).map Prod.fst = [8, 9, 10])
    ∧ dget (get_historical_value
        [⟨"AAA", "A", 2, 1, "SGD"⟩, ⟨"BBB", "B", 3, 1, "USD"⟩]
        [("AAA", [(1,1),(2,2),(3,3),(4,4),(5,5),(6,6),(7,7),(8,8),(9,9),(10,10)]),
         ("BBB", [(8,2),(9,2),(10,2),(11,2),(12,2),(13,2),(14,2),(15,2),(16,2),(17,2)])]
        [("USD", [(8, 27/20)])]) 9 = some (some (261/10)) := by
  have h := c5_historical_spec
    [⟨"AAA", "A", 2, 1, "SGD"⟩, ⟨"BBB", "B", 3, 1, "USD"⟩]
    [("AAA", [(1,1),(2,2),(3,3),(4,4),(5,5),(6,6),(7,7),(8,8),(9,9),(10,10)]),
     ("BBB", [(8,2),(9,2),(10,2),(11,2),(12,2),(13,2),(14,2),(15,2),(16,2),(17,2)])]
    [("USD", [(8, 27/20)])]
    (by decide) (by decide)
  have hidx : (get_historical_value
      [⟨"AAA", "A", 2, 1, "SGD"⟩, ⟨"BBB", "B", 3, 1, "USD"⟩]
      [("AAA", [(1,1),(2,2),(3,3),(4,4),(5,5),(6,6),(7,7),(8,8),(9,9),(10,10)]),
       ("BBB", [(8,2),(9,2),(10,2),(11,2),(12,2),(13,2),(14,2),(15,2),(16,2),(17,2)])]
      [("USD", [(8, 27/20)])]).map Prod.fst = [8, 9, 10] := by
    simp [get_historical_value, commonIndexOf, histTotal, availHist, interIdx, sIndex,
      reindexO, ffill, ffillAux, fillna, addO, mulO, constS, fxSeries, dget, List.foldl,
      decide_eq_true_eq]
  refine ⟨hidx, ?_⟩
  have hval := h.2 9 (by rw [hidx]; decide)
  rw [hidx] at hval
  rw [hval]
  simp [histContrib, availHist, fxValAt, fxSeries, dget, constS, reindexO, ffill,
    ffillAux, fillna, decide_eq_true_eq]
  norm_num

end Portfolio
